import Mathlib

/-!
Verification of the call-instrumentation and storage subsystem of the
repository (the `Cache` class with its `count_calls` / `call_history`
decorators backed by Redis, the replay transcript, and the MongoDB helper
`update_topics`).

The Redis backend visible to this code is modelled as a finite map from
string keys to values that are either byte strings or lists of byte
strings, together with a trace of the commands issued (in order), so that
statements about the order of side effects can be made.  Python byte
strings are modelled as Lean `String`s (their character content), Python
integers as `Int`.

Redis stores counters as decimal strings and `INCR` parses and re-renders
them, and Python's `int()` parses decimal byte strings, so we first build
a decimal printer (`natToDec` / `intToDec`, fuel-based so it reduces in
the kernel) and parser (`parseInt?`) and prove the round trip.
-/

/-- The character of a single decimal digit (`0` ↦ `'0'`, …, `9` ↦ `'9'`). -/
def decDigitChar : Nat → Char
  | 0 => '0'
  | 1 => '1'
  | 2 => '2'
  | 3 => '3'
  | 4 => '4'
  | 5 => '5'
  | 6 => '6'
  | 7 => '7'
  | 8 => '8'
  | _ => '9'

/-- Numeric value of a decimal digit character. -/
def digitVal (c : Char) : Nat := c.toNat - 48

/-- Accumulator-style decimal parse of a digit list; `none` on a non-digit. -/
def parseDigitsAux : Nat → List Char → Option Nat
  | acc, [] => some acc
  | acc, c :: cs => if c.isDigit then parseDigitsAux (10 * acc + digitVal c) cs else none

/-- Parse a nonempty list of decimal digits as a natural number. -/
def parseNatChars : List Char → Option Nat
  | [] => none
  | c :: cs => parseDigitsAux 0 (c :: cs)

/-- Decimal digit characters of `n`, most significant first.  Structural in
the fuel so that it reduces inside the kernel. -/
def natToDecCore : Nat → Nat → List Char
  | 0, _ => []
  | fuel + 1, n =>
    if n < 10 then [decDigitChar n]
    else natToDecCore fuel (n / 10) ++ [decDigitChar (n % 10)]

/-- Decimal digit characters of a natural number. -/
def natToDecList (n : Nat) : List Char := natToDecCore (n + 1) n

/-- Decimal digit characters of an integer (leading `'-'` when negative). -/
def intToDecList (n : Int) : List Char :=
  if n < 0 then '-' :: natToDecList n.natAbs else natToDecList n.natAbs

/-- Decimal string of an integer, as rendered by Python and by Redis. -/
def intToDec (n : Int) : String := String.mk (intToDecList n)

/-- Decimal string of a natural number. -/
def natToDec (n : Nat) : String := String.mk (natToDecList n)

/-- Parse of a decimal integer from characters (optional leading `'-'`),
as performed by Python's `int()` on a decimal byte string and by Redis
`INCR` on a stored counter. -/
def parseIntChars : List Char → Option Int
  | [] => none
  | c :: cs =>
    if c = '-' then (parseNatChars cs).map (fun m => -(Int.ofNat m))
    else (parseNatChars (c :: cs)).map Int.ofNat

/-- Parse of a decimal integer from a string. -/
def parseInt? (s : String) : Option Int := parseIntChars s.data

/-!
## Data model

`Value` models the Python values this code stores and returns:
`exercise.py` declares `data: Union[str, bytes, int, float]`; the claims
under verification involve the `str`, `bytes` and `int` cases, which are
modelled here (bytes are modelled by their character content).
-/

/-- A Python value handled by `Cache`. -/
inductive Value where
  | vstr (s : String)
  | vbytes (b : String)
  | vint (n : Int)
deriving DecidableEq

/-- The single-quote character, used by Python `repr` of strings. -/
def pyQuote : String := String.singleton (Char.ofNat 39)

/-- Python `repr` of a value (`repr('foo')` quotes, `repr(42)` is decimal). -/
def pyRepr : Value → String
  | .vstr s => pyQuote ++ s ++ pyQuote
  | .vbytes b => "b" ++ pyQuote ++ b ++ pyQuote
  | .vint n => intToDec n

/-- Python `str` of a value (`str('foo') = 'foo'` unquoted, `str(42)` decimal,
`str(b)` for bytes is its `repr`). -/
def pyStr : Value → String
  | .vstr s => s
  | .vbytes b => "b" ++ pyQuote ++ b ++ pyQuote
  | .vint n => intToDec n

/-- Python `str(args)` for the tuple of positional arguments, as pushed to
the inputs log by `call_history` (`str(('foo',)) = "('foo',)"`). -/
def strOfArgs : List Value → String
  | [a] => "(" ++ pyRepr a ++ ",)"
  | as => "(" ++ String.intercalate ", " (as.map pyRepr) ++ ")"

/-- The byte content Redis stores for a value passed to `SET` (redis-py
serializes `str` as its UTF-8 bytes and `int` as its decimal digits). -/
def encode : Value → String
  | .vstr s => s
  | .vbytes b => b
  | .vint n => intToDec n

/-!
## The Redis backend

The store visible to `exercise.py` maps string keys to either byte-string
values (`SET`/`GET`/`INCR`) or lists of byte strings (`RPUSH`/`LRANGE`).
Each issued command is also appended to a trace so the order of side
effects is observable.  Commands that Redis answers with an error
(`WRONGTYPE`, or `INCR` on a non-numeric value) return `Except.error`,
which redis-py raises and which therefore propagates in the Python code.
-/

/-- A value held under one Redis key. -/
inductive RedisVal where
  | str (b : String)
  | list (l : List String)
deriving DecidableEq

/-- One Redis command issuance, for the side-effect trace. -/
inductive Event where
  | set (key val : String)
  | get (key : String)
  | incr (key : String)
  | rpush (key val : String)
  | flushdb
deriving DecidableEq

/-- The Redis database (key space) plus the trace of commands issued. -/
structure Redis where
  db : String → Option RedisVal
  trace : List Event

/-- The empty database with an empty trace. -/
def Redis.empty : Redis := { db := fun _ => none, trace := [] }

/-- Point update of the key space. -/
def Redis.setDb (r : Redis) (k : String) (v : RedisVal) : Redis :=
  { r with db := fun q => if q = k then some v else r.db q }

/-- Record a command in the trace. -/
def Redis.log (r : Redis) (e : Event) : Redis :=
  { r with trace := r.trace ++ [e] }

/-- Redis `SET key val` — stores the byte string, overwriting any previous value. -/
def Redis.setCmd (r : Redis) (k v : String) : Redis :=
  (r.setDb k (.str v)).log (.set k v)

/-- Redis `GET key` — `none` when absent, the bytes when a string is stored,
a `WRONGTYPE` error when a list is stored. -/
def Redis.getCmd (r : Redis) (k : String) : Redis × Except String (Option String) :=
  (r.log (.get k),
    match r.db k with
    | none => .ok none
    | some (.str b) => .ok (some b)
    | some (.list _) => .error "WRONGTYPE")

/-- Redis `INCR key` — parses the stored decimal string (absent counts as 0),
adds one and stores the result back as a decimal string; errors on a list
or a non-numeric value. -/
def Redis.incrCmd (r : Redis) (k : String) : Redis × Except String Int :=
  match r.db k with
  | none => ((r.setDb k (.str (intToDec 1))).log (.incr k), .ok 1)
  | some (.str b) =>
    match parseInt? b with
    | some v => ((r.setDb k (.str (intToDec (v + 1)))).log (.incr k), .ok (v + 1))
    | none => (r.log (.incr k), .error "value is not an integer or out of range")
  | some (.list _) => (r.log (.incr k), .error "WRONGTYPE")

/-- Redis `RPUSH key val` — appends to the list stored at the key, creating it
when absent; errors on a string value. -/
def Redis.rpushCmd (r : Redis) (k v : String) : Redis × Except String Nat :=
  match r.db k with
  | none => ((r.setDb k (.list [v])).log (.rpush k v), .ok 1)
  | some (.list l) => ((r.setDb k (.list (l ++ [v]))).log (.rpush k v), .ok (l.length + 1))
  | some (.str _) => (r.log (.rpush k v), .error "WRONGTYPE")

/-- Redis `LRANGE key 0 -1` — the whole stored list, `[]` when the key is absent,
an error on a string value.  Pure read. -/
def Redis.lrangeAll (r : Redis) (k : String) : Except String (List String) :=
  match r.db k with
  | none => .ok []
  | some (.list l) => .ok l
  | some (.str _) => .error "WRONGTYPE"

/-- Redis `FLUSHDB` — clears the whole key space (the explicit reset). -/
def Redis.flushdb (r : Redis) : Redis :=
  { db := fun _ => none, trace := r.trace ++ [.flushdb] }

/-!
## The instrumented Cache

A method, as the decorators see it: it receives `self._redis` (threaded
explicitly as the `Redis` state), the positional arguments and the keyword
arguments, and either returns a value or raises.  Raised exceptions are
`Except.error`; the state reached before the raise is kept.
-/

/-- Outcome of invoking a method: the Redis state and the returned value
(or the raised exception). -/
structure MRes where
  redis : Redis
  result : Except String Value

/-- A bound method body: `self._redis`, `*args`, `**kwargs` ↦ outcome. -/
def Method := Redis → List Value → List (String × Value) → MRes

/-- The value of `method.__qualname__` for `Cache.store` (preserved on the wrappers by
`functools.wraps`). -/
def storeQual : String := "Cache.store"

/-- The inputs-log key of `Cache.store`: its qualname followed by `:inputs`. -/
def inputsKey : String := "Cache.store:inputs"

/-- The outputs-log key of `Cache.store`: its qualname followed by `:outputs`. -/
def outputsKey : String := "Cache.store:outputs"

/-- The `count_calls` decorator: `self._redis.incr(method.__qualname__)`,
then delegate.  A Redis error from `incr` raises and so propagates;
otherwise the wrapped method runs and its outcome is returned unchanged. -/
def count_calls (qualname : String) (method : Method) : Method := fun r args kwargs =>
  match r.incrCmd qualname with
  | (r1, .ok _) => method r1 args kwargs
  | (r1, .error e) => { redis := r1, result := .error e }

/-- The `call_history` decorator: `rpush(inputs, str(args))`, delegate,
`rpush(outputs, str(output))`, return the output.  Any raise — from either
`rpush` or from the wrapped method — propagates, and a raise in the
wrapped method skips the output append. -/
def call_history (qualname : String) (method : Method) : Method := fun r args kwargs =>
  match r.rpushCmd (qualname ++ ":inputs") (strOfArgs args) with
  | (r1, .error e) => { redis := r1, result := .error e }
  | (r1, .ok _) =>
    let res := method r1 args kwargs
    match res.result with
    | .error e => { redis := res.redis, result := .error e }
    | .ok output =>
      match res.redis.rpushCmd (qualname ++ ":outputs") (pyStr output) with
      | (r2, .error e) => { redis := r2, result := .error e }
      | (r2, .ok _) => { redis := r2, result := .ok output }

/-- The undecorated body of `Cache.store`: `key = str(uuid.uuid4())` —
the generated identifier is passed in as `key` — then `set(key, data)` and
return the key.  `store(self, data)` accepts exactly one argument `data`,
positionally or by keyword; anything else is a `TypeError`. -/
def store_impl (key : String) : Method := fun r args kwargs =>
  match args, kwargs with
  | [data], [] => { redis := r.setCmd key (encode data), result := .ok (.vstr key) }
  | [], [("data", data)] => { redis := r.setCmd key (encode data), result := .ok (.vstr key) }
  | _, _ => { redis := r, result := .error "TypeError" }

/-- The method `Cache.store` as decorated in the source: `@call_history` above
`@count_calls` above the body, both keyed by `Cache.store.__qualname__`. -/
def Cache.store (key : String) : Method :=
  call_history storeQual (count_calls storeQual (store_impl key))

/-- Python `Cache.__init__`: connects to Redis and flushes the database. -/
def Cache.init (r : Redis) : Redis := r.flushdb

/-- Python `Cache.get`: `data = get(key)`; `None` when absent; otherwise apply the
optional decode function `fn` and return its result; a raise in `fn` (or
from Redis) propagates. -/
def Cache.get (r : Redis) (key : String) (fn : Option (String → Except String Value)) :
    Redis × Except String (Option Value) :=
  match r.getCmd key with
  | (r1, .error e) => (r1, .error e)
  | (r1, .ok none) => (r1, .ok none)
  | (r1, .ok (some data)) =>
    match fn with
    | none => (r1, .ok (some (.vbytes data)))
    | some f =>
      match f data with
      | .ok v => (r1, .ok (some v))
      | .error e => (r1, .error e)

/-- The decode function `lambda d: d.decode("utf-8")` used by `get_str`. -/
def utf8Decode (b : String) : Except String Value := .ok (.vstr b)

/-- The decode function `lambda d: int(d)` used by `get_int`: Python
`int()` on a decimal byte string, `ValueError` when non-numeric. -/
def intDecode (b : String) : Except String Value :=
  match parseInt? b with
  | some n => .ok (.vint n)
  | none => .error "ValueError"

/-- Python `Cache.get_str`: `get` with the UTF-8 decode function. -/
def Cache.get_str (r : Redis) (key : String) : Redis × Except String (Option Value) :=
  Cache.get r key (some utf8Decode)

/-- Python `Cache.get_int`: `get` with the integer decode function. -/
def Cache.get_int (r : Redis) (key : String) : Redis × Except String (Option Value) :=
  Cache.get r key (some intDecode)

/-- A sequence of `Cache.store` invocations: each call supplies the freshly
generated key and the data argument.  Returns the final state and the list
of per-call outcomes in call order. -/
def storeSeq : Redis → List (String × Value) → Redis × List (Except String Value)
  | r, [] => (r, [])
  | r, (k, d) :: rest =>
    let res := Cache.store k r [d] []
    let s := storeSeq res.redis rest
    (s.1, res.result :: s.2)

/-- Modelled from the spec: the repository's replay printer is not among
the provided source files, so it is modelled from §4.3/§6 of the spec —
`replay(operationIdentity)` reads the full inputs log and the full outputs
log, uses the inputs-log length as the call count, prints a header
`"<operationIdentity> was called <N> times:"` and then one line
`"<operationIdentity>(*<inputRepr>) -> <outputRepr>"` per index, pairing
the i-th input with the i-th output.  The printed lines are returned as a
list; a Redis error propagates. -/
def replay (r : Redis) (qualname : String) : Except String (List String) :=
  match r.lrangeAll (qualname ++ ":inputs"), r.lrangeAll (qualname ++ ":outputs") with
  | .ok ins, .ok outs =>
    .ok ((qualname ++ " was called " ++ natToDec ins.length ++ " times:") ::
      (List.zip ins outs).map (fun p => qualname ++ "(*" ++ p.1 ++ ") -> " ++ p.2))
  | .error e, _ => .error e
  | .ok _, .error e => .error e

/-!
## Reading the durable records

`counterValue` is the durable counter associated with an operation
identity: the decimal value stored under the identity key, an absent key
reading as zero (Redis `INCR` semantics).
-/

/-- The durable call counter stored under an operation-identity key. -/
def counterValue (r : Redis) (q : String) : Int :=
  match r.db q with
  | some (.str b) => (parseInt? b).getD 0
  | _ => 0

/-- A freshly generated `uuid4` storage key: never equal to any of the
three instrumentation keys of `Cache.store` (a UUID string cannot collide
with a qualified method name). -/
def ValidKey (k : String) : Prop :=
  k ≠ storeQual ∧ k ≠ inputsKey ∧ k ≠ outputsKey

instance (k : String) : Decidable (ValidKey k) := by
  unfold ValidKey
  infer_instance

/-!
## The MongoDB helper `10-update_topics.py`

`update_topics` builds its query and update documents and then evaluates
the expression `{"multi": true}`.  The name `true` is not defined anywhere
in that module (Python's boolean is `True`), so evaluating it raises
`NameError` before the collection's `update` method is ever invoked.  The
module's name lookup is embedded explicitly: `pyName` resolves an
identifier against the names in scope in that module.
-/

/-- A Python object as handled by the Mongo helpers. -/
inductive PyObj where
  | pystr (s : String)
  | pybool (b : Bool)
  | pynone
  | pydict (l : List (String × PyObj))

/-- The names in scope in `10-update_topics.py` that could resolve a bare
identifier used inside `update_topics` (the relevant builtins; the module
defines no global named `true`). -/
def moduleScope : List (String × PyObj) :=
  [("True", .pybool true), ("False", .pybool false), ("None", .pynone)]

/-- Python name resolution in that module: `NameError` when unbound. -/
def pyName (n : String) : Except String PyObj :=
  match moduleScope.lookup n with
  | some v => .ok v
  | none => .error ("NameError: name " ++ pyQuote ++ n ++ pyQuote ++ " is not defined")

/-- Python `update_topics(mongo_collection, name, topics)`: builds
`query = {name: name}` and `value = {"$set": {topics: topics}}`, then
evaluates `optional = {"multi": true}` — resolving the name `true` — and
only then would call `mongo_collection.update(query, value, optional)`.
The collection is abstract: any state type `σ` with any `update`
operation. -/
def update_topics {σ : Type}
    (collUpdate : σ → List (String × PyObj) → List (String × PyObj) →
      List (String × PyObj) → σ × PyObj)
    (mongo_collection : σ) (name topics : String) : σ × Except String PyObj :=
  let query := [(name, PyObj.pystr name)]
  let value := [("$set", PyObj.pydict [(topics, PyObj.pystr topics)])]
  match pyName "true" with
  | .error e => (mongo_collection, .error e)
  | .ok b =>
    let optional := [("multi", b)]
    let res := collUpdate mongo_collection query value optional
    (res.1, .ok res.2)

/-!
## Invariants of the durable records
-/

/-- The counter for identity `q` holds `n`: the key stores the decimal
string for `n`, or is absent and `n = 0`. -/
def CounterIs (r : Redis) (q : String) (n : Nat) : Prop :=
  r.db q = some (.str (intToDec (n : Int))) ∨ (n = 0 ∧ r.db q = none)

/-- The log at key `k` holds exactly the entries `l` (absent ↔ empty). -/
def LogIs (r : Redis) (k : String) (l : List String) : Prop :=
  r.db k = some (.list l) ∨ (l = [] ∧ r.db k = none)

/-- A wrapped operation that always raises, used to witness failure
propagation. -/
def failingMethod : Method := fun r2 _ _ => { redis := r2, result := .error "boom" }

/-- A wrapped operation whose result reveals the keyword arguments it
received, used to witness that they are passed through. -/
def kwProbe : Method := fun r2 _ kwargs =>
  { redis := r2, result := .ok (.vint (Int.ofNat kwargs.length)) }

theorem decDigitChar_isDigit {d : Nat} (h : d < 10) :
    (decDigitChar d).isDigit = true ∧ digitVal (decDigitChar d) = d := by
  interval_cases d <;> exact ⟨by decide, by decide⟩

theorem parseDigitsAux_append (xs ys : List Char) (acc : Nat) :
    parseDigitsAux acc (xs ++ ys)
      = (parseDigitsAux acc xs).bind (fun a => parseDigitsAux a ys) := by
  induction xs generalizing acc with
  | nil => simp [parseDigitsAux]
  | cons c cs ih =>
    simp only [List.cons_append, parseDigitsAux]
    by_cases hc : c.isDigit
    · simp [hc, ih]
    · simp [hc]

theorem natToDecCore_ne_nil (fuel n : Nat) (h : 0 < fuel) :
    natToDecCore fuel n ≠ [] := by
  cases fuel with
  | zero => omega
  | succ f =>
    simp only [natToDecCore]
    by_cases hn : n < 10
    · simp [hn]
    · simp [hn]

theorem parseDigitsAux_natToDecCore (fuel : Nat) :
    ∀ n acc, n < 10 ^ fuel →
      parseDigitsAux acc (natToDecCore fuel n)
        = some (acc * 10 ^ (natToDecCore fuel n).length + n) := by
  induction fuel with
  | zero =>
    intro n acc h
    have : n = 0 := by simpa using Nat.lt_one_iff.mp (by simpa using h)
    subst this
    simp [natToDecCore, parseDigitsAux]
  | succ f ih =>
    intro n acc h
    by_cases hn : n < 10
    · have hd := decDigitChar_isDigit hn
      simp [natToDecCore, hn, parseDigitsAux, hd.1, hd.2, Nat.mul_comm]
    · have hdiv : n / 10 < 10 ^ f := by
        have h10 : 0 < 10 := by norm_num
        rw [Nat.div_lt_iff_lt_mul h10]
        calc n < 10 ^ (f + 1) := h
        _ = 10 ^ f * 10 := by ring
      have hmod : n % 10 < 10 := Nat.mod_lt _ (by norm_num)
      have hd := decDigitChar_isDigit hmod
      simp only [natToDecCore, hn, if_false]
      rw [parseDigitsAux_append, ih (n / 10) acc hdiv]
      simp only [Option.some_bind, parseDigitsAux, hd.1, if_true, hd.2,
        List.length_append, List.length_cons, List.length_nil, Nat.zero_add]
      congr 1
      rw [pow_succ, ← Nat.mul_assoc]
      set Z := acc * 10 ^ (natToDecCore f (n / 10)).length with hZ
      omega

theorem parseNatChars_natToDecList (n : Nat) :
    parseNatChars (natToDecList n) = some n := by
  have hfuel : n < 10 ^ (n + 1) := by
    calc n < 10 ^ n := Nat.lt_pow_self (by norm_num) n
    _ ≤ 10 ^ (n + 1) := Nat.pow_le_pow_right (by norm_num) (Nat.le_succ n)
  have hne : natToDecList n ≠ [] := natToDecCore_ne_nil (n + 1) n (Nat.succ_pos n)
  have hparse := parseDigitsAux_natToDecCore (n + 1) n 0 hfuel
  obtain ⟨c, cs, hcons⟩ := List.exists_cons_of_ne_nil hne
  unfold natToDecList at hcons ⊢
  rw [hcons] at hparse ⊢
  simpa [parseNatChars] using hparse

theorem natToDecCore_all_digits (fuel : Nat) :
    ∀ n c, c ∈ natToDecCore fuel n → c.isDigit = true := by
  induction fuel with
  | zero => intro n c hc; simp [natToDecCore] at hc
  | succ f ih =>
    intro n c hc
    by_cases hn : n < 10
    · simp [natToDecCore, hn] at hc
      subst hc
      exact (decDigitChar_isDigit hn).1
    · simp [natToDecCore, hn] at hc
      rcases hc with hc | hc
      · exact ih _ _ hc
      · subst hc
        exact (decDigitChar_isDigit (Nat.mod_lt _ (by norm_num))).1

theorem parseInt_intToDec (m : Int) : parseInt? (intToDec m) = some m := by
  unfold parseInt? intToDec
  by_cases hm : m < 0
  · simp only [intToDecList, hm, if_true]
    show parseIntChars ('-' :: natToDecList m.natAbs) = some m
    simp only [parseIntChars, eq_self_iff_true, if_true, parseNatChars_natToDecList,
      Option.map_some', Option.some.injEq, Int.ofNat_eq_natCast]
    omega
  · simp only [intToDecList, hm, if_false]
    have hne : natToDecList m.natAbs ≠ [] :=
      natToDecCore_ne_nil _ _ (Nat.succ_pos _)
    obtain ⟨c, cs, hcons⟩ := List.exists_cons_of_ne_nil hne
    have hdigit : c.isDigit = true := by
      apply natToDecCore_all_digits (m.natAbs + 1) m.natAbs
      unfold natToDecList at hcons
      rw [hcons]
      exact List.mem_cons_self c cs
    have hcne : c ≠ '-' := by
      intro h
      rw [h] at hdigit
      exact absurd hdigit (by decide)
    show parseIntChars (natToDecList m.natAbs) = some m
    rw [hcons]
    simp only [parseIntChars, if_neg hcne]
    rw [← hcons, parseNatChars_natToDecList]
    simp only [Option.map_some', Option.some.injEq, Int.ofNat_eq_natCast]
    omega

theorem counterIs_of_db_eq {r r2 : Redis} {q : String} {n : Nat}
    (h : r2.db q = r.db q) (hc : CounterIs r q n) : CounterIs r2 q n := by
  unfold CounterIs at hc ⊢
  rw [h]
  exact hc

theorem logIs_of_db_eq {r r2 : Redis} {k : String} {l : List String}
    (h : r2.db k = r.db k) (hl : LogIs r k l) : LogIs r2 k l := by
  unfold LogIs at hl ⊢
  rw [h]
  exact hl

theorem db_log (r : Redis) (e : Event) (q : String) : (r.log e).db q = r.db q := rfl

theorem db_setDb_of_ne (r : Redis) (k : String) (v : RedisVal) (q : String)
    (h : ¬ q = k) : (r.setDb k v).db q = r.db q := by
  simp [Redis.setDb, h]

theorem db_setDb_self (r : Redis) (k : String) (v : RedisVal) :
    (r.setDb k v).db k = some v := by
  simp [Redis.setDb]

theorem incr_of_counterIs {r : Redis} {q : String} {n : Nat} (h : CounterIs r q n) :
    r.incrCmd q
      = ((r.setDb q (.str (intToDec ((n : Int) + 1)))).log (.incr q), .ok ((n : Int) + 1)) := by
  rcases h with h | ⟨hn, h⟩
  · simp [Redis.incrCmd, h, parseInt_intToDec]
  · subst hn
    simp [Redis.incrCmd, h]

theorem rpush_of_logIs {r : Redis} {k : String} {l : List String} (h : LogIs r k l)
    (v : String) :
    r.rpushCmd k v
      = ((r.setDb k (.list (l ++ [v]))).log (.rpush k v), .ok (l.length + 1)) := by
  rcases h with h | ⟨hl, h⟩
  · simp [Redis.rpushCmd, h]
  · subst hl
    simp [Redis.rpushCmd, h]

theorem inputsKey_eq : storeQual ++ ":inputs" = inputsKey := rfl

theorem outputsKey_eq : storeQual ++ ":outputs" = outputsKey := rfl

/-- Full evaluation of one invocation of the decorated `Cache.store` on a
well-formed state: inputs-log append, counter increment, the underlying
`SET`, then outputs-log append, returning the key. -/
theorem store_call_eq (r : Redis) (k : String) (d : Value) (n : Nat) (li lo : List String)
    (hk : ValidKey k) (hc : CounterIs r storeQual n)
    (hi : LogIs r inputsKey li) (ho : LogIs r outputsKey lo) :
    Cache.store k r [d] [] =
      { redis := (((((((r.setDb inputsKey (.list (li ++ [strOfArgs [d]]))).log
            (.rpush inputsKey (strOfArgs [d]))).setDb storeQual
            (.str (intToDec ((n : Int) + 1)))).log (.incr storeQual)).setDb k
            (.str (encode d))).log (.set k (encode d))).setDb outputsKey
            (.list (lo ++ [k]))).log (.rpush outputsKey k),
        result := .ok (.vstr k) } := by
  obtain ⟨hk1, hk2, hk3⟩ := hk
  have e1 := rpush_of_logIs hi (strOfArgs [d])
  have hc1 : CounterIs ((r.setDb inputsKey (.list (li ++ [strOfArgs [d]]))).log
      (.rpush inputsKey (strOfArgs [d]))) storeQual n := by
    apply counterIs_of_db_eq _ hc
    rw [db_log, db_setDb_of_ne _ _ _ _ (by decide)]
  have e2 := incr_of_counterIs hc1
  have ho3 : LogIs ((((((r.setDb inputsKey (.list (li ++ [strOfArgs [d]]))).log
      (.rpush inputsKey (strOfArgs [d]))).setDb storeQual
      (.str (intToDec ((n : Int) + 1)))).log (.incr storeQual)).setDb k
      (.str (encode d))).log (.set k (encode d))) outputsKey lo := by
    apply logIs_of_db_eq _ ho
    rw [db_log, db_setDb_of_ne _ _ _ _ (fun hq => hk3 hq.symm), db_log,
      db_setDb_of_ne _ _ _ _ (by decide), db_log,
      db_setDb_of_ne _ _ _ _ (by decide)]
  have e4 := rpush_of_logIs ho3 k
  simp only [Cache.store, call_history, count_calls, store_impl, Redis.setCmd,
    inputsKey_eq, outputsKey_eq, pyStr, e1, e2, e4]

/-- Component facts about one `Cache.store` invocation: the returned key,
the incremented counter, both log appends, the stored data, and the exact
order of the issued commands. -/
theorem store_call_facts (r : Redis) (k : String) (d : Value) (n : Nat) (li lo : List String)
    (hk : ValidKey k) (hc : CounterIs r storeQual n)
    (hi : LogIs r inputsKey li) (ho : LogIs r outputsKey lo) :
    (Cache.store k r [d] []).result = .ok (.vstr k) ∧
    CounterIs (Cache.store k r [d] []).redis storeQual (n + 1) ∧
    LogIs (Cache.store k r [d] []).redis inputsKey (li ++ [strOfArgs [d]]) ∧
    LogIs (Cache.store k r [d] []).redis outputsKey (lo ++ [k]) ∧
    (Cache.store k r [d] []).redis.db k = some (.str (encode d)) ∧
    (Cache.store k r [d] []).redis.trace
      = r.trace ++ [.rpush inputsKey (strOfArgs [d]), .incr storeQual,
          .set k (encode d), .rpush outputsKey k] := by
  obtain ⟨hk1, hk2, hk3⟩ := id hk
  rw [store_call_eq r k d n li lo hk hc hi ho]
  have hcast : ((n : Int) + 1) = (((n + 1 : Nat)) : Int) := by push_cast; ring
  refine ⟨rfl, ?_, ?_, ?_, ?_, ?_⟩
  · left
    rw [db_log, db_setDb_of_ne _ _ _ _ (by decide), db_log,
      db_setDb_of_ne _ _ _ _ (fun hq => hk1 hq.symm), db_log, db_setDb_self, hcast]
  · left
    rw [db_log, db_setDb_of_ne _ _ _ _ (by decide), db_log,
      db_setDb_of_ne _ _ _ _ (fun hq => hk2 hq.symm), db_log,
      db_setDb_of_ne _ _ _ _ (by decide), db_log, db_setDb_self]
  · left
    rw [db_log, db_setDb_self]
  · rw [db_log, db_setDb_of_ne _ _ _ _ hk3, db_log, db_setDb_self]
  · simp [Redis.log, Redis.setDb]

/-- Invariant of a sequence of `Cache.store` invocations with fresh keys:
counter, inputs log, outputs log and per-call results. -/
theorem storeSeq_inv (calls : List (String × Value)) :
    ∀ (r : Redis) (n : Nat) (li lo : List String),
      (∀ c ∈ calls, ValidKey c.1) →
      CounterIs r storeQual n → LogIs r inputsKey li → LogIs r outputsKey lo →
      CounterIs (storeSeq r calls).1 storeQual (n + calls.length) ∧
      LogIs (storeSeq r calls).1 inputsKey (li ++ calls.map (fun c => strOfArgs [c.2])) ∧
      LogIs (storeSeq r calls).1 outputsKey (lo ++ calls.map (fun c => pyStr (.vstr c.1))) ∧
      (storeSeq r calls).2 = calls.map (fun c => Except.ok (Value.vstr c.1)) := by
  induction calls with
  | nil =>
    intro r n li lo hv hc hi ho
    simp only [storeSeq, List.map_nil, List.append_nil, List.length_nil, Nat.add_zero]
    exact ⟨hc, hi, ho, trivial⟩
  | cons c rest ih =>
    intro r n li lo hv hc hi ho
    obtain ⟨k, d⟩ := c
    have hk : ValidKey k := hv _ (List.mem_cons_self _ _)
    have hf := store_call_facts r k d n li lo hk hc hi ho
    have ihr := ih (Cache.store k r [d] []).redis (n + 1) (li ++ [strOfArgs [d]])
      (lo ++ [k]) (fun c2 hc2 => hv c2 (List.mem_cons_of_mem _ hc2))
      hf.2.1 hf.2.2.1 hf.2.2.2.1
    simp only [storeSeq, List.map_cons, List.length_cons]
    refine ⟨?_, ?_, ?_, ?_⟩
    · have : n + (rest.length + 1) = (n + 1) + rest.length := by omega
      rw [this]
      exact ihr.1
    · have := ihr.2.1
      rwa [List.append_assoc, List.singleton_append] at this
    · have := ihr.2.2.1
      have hps : pyStr (.vstr k) = k := rfl
      rw [List.append_assoc, List.singleton_append] at this
      simpa [hps] using this
    · rw [hf.1, ihr.2.2.2]

theorem counterValue_of_counterIs {r : Redis} {q : String} {n : Nat}
    (h : CounterIs r q n) : counterValue r q = n := by
  rcases h with h | ⟨hn, h⟩
  · unfold counterValue
    rw [h]
    simp [parseInt_intToDec]
  · unfold counterValue
    rw [h, hn]
    simp

theorem lrangeAll_of_logIs {r : Redis} {k : String} {l : List String}
    (h : LogIs r k l) : r.lrangeAll k = .ok l := by
  rcases h with h | ⟨hl, h⟩
  · simp [Redis.lrangeAll, h]
  · subst hl
    simp [Redis.lrangeAll, h]

theorem counterIs_init (r0 : Redis) (q : String) : CounterIs (Cache.init r0) q 0 :=
  Or.inr ⟨rfl, rfl⟩

theorem logIs_init (r0 : Redis) (k : String) : LogIs (Cache.init r0) k [] :=
  Or.inr ⟨rfl, rfl⟩

/-- C1: for every sequence of N invocations of the counted operation
`Cache.store` (any N ≥ 0) starting from a fresh/flushed store, the durable
counter held under the operation-identity key `"Cache.store"` equals N.
Each invocation supplies a freshly generated (UUID) key, which never
collides with the instrumentation keys. -/
theorem counter_equals_invocations (r0 : Redis) (calls : List (String × Value))
    (hv : ∀ c ∈ calls, ValidKey c.1) :
    counterValue (storeSeq (Cache.init r0) calls).1 storeQual = (calls.length : Int) := by
  have h := storeSeq_inv calls (Cache.init r0) 0 [] [] hv (counterIs_init r0 _)
    (logIs_init r0 _) (logIs_init r0 _)
  have := counterValue_of_counterIs h.1
  simpa using this

theorem counter_equals_invocations_witness :
    counterValue (storeSeq (Cache.init Redis.empty)
        [("k1", Value.vstr "foo"), ("k2", Value.vint 42), ("k3", Value.vbytes "bar")]).1
      storeQual = 3 :=
  counter_equals_invocations Redis.empty
    [("k1", Value.vstr "foo"), ("k2", Value.vint 42), ("k3", Value.vbytes "bar")]
    (by decide)

/-- C2: after N recorded invocations of `Cache.store` from a fresh store,
the inputs log and the outputs log each have length N; the i-th input
entry is `str(args)` of the arguments of the i-th call and the i-th
output entry is `str` of the result (the key) returned by the i-th call —
the per-call results being exactly the generated keys. -/
theorem logs_record_invocations (r0 : Redis) (calls : List (String × Value))
    (hv : ∀ c ∈ calls, ValidKey c.1) :
    (storeSeq (Cache.init r0) calls).1.lrangeAll inputsKey
        = .ok (calls.map (fun c => strOfArgs [c.2])) ∧
    (storeSeq (Cache.init r0) calls).1.lrangeAll outputsKey
        = .ok (calls.map (fun c => pyStr (.vstr c.1))) ∧
    (storeSeq (Cache.init r0) calls).2
        = calls.map (fun c => Except.ok (Value.vstr c.1)) ∧
    (calls.map (fun c => strOfArgs [c.2])).length = calls.length ∧
    (calls.map (fun c => pyStr (.vstr c.1))).length = calls.length := by
  have h := storeSeq_inv calls (Cache.init r0) 0 [] [] hv (counterIs_init r0 _)
    (logIs_init r0 _) (logIs_init r0 _)
  refine ⟨?_, ?_, h.2.2.2, List.length_map _ _, List.length_map _ _⟩
  · have := lrangeAll_of_logIs h.2.1
    simpa using this
  · have := lrangeAll_of_logIs h.2.2.1
    simpa using this

theorem logs_record_invocations_witness :
    (storeSeq (Cache.init Redis.empty) [("k1", Value.vstr "foo"), ("k2", Value.vint 42)]).1.lrangeAll
        inputsKey
        = .ok ([("k1", Value.vstr "foo"), ("k2", Value.vint 42)].map
            (fun c => strOfArgs [c.2])) ∧
    (storeSeq (Cache.init Redis.empty) [("k1", Value.vstr "foo"), ("k2", Value.vint 42)]).1.lrangeAll
        outputsKey = .ok ["k1", "k2"] ∧
    (storeSeq (Cache.init Redis.empty) [("k1", Value.vstr "foo"), ("k2", Value.vint 42)]).2
        = [Except.ok (Value.vstr "k1"), Except.ok (Value.vstr "k2")] ∧
    ([("k1", Value.vstr "foo"), ("k2", Value.vint 42)].map
        (fun c => strOfArgs [c.2])).length = 2 ∧
    (["k1", "k2"] : List String).length = 2 := by
  have h := logs_record_invocations Redis.empty
    [("k1", Value.vstr "foo"), ("k2", Value.vint 42)] (by decide)
  exact h

theorem zip_getElem?_some {α β : Type} {as : List α} {bs : List β} {i : Nat} {x : α} {y : β}
    (hx : as[i]? = some x) (hy : bs[i]? = some y) :
    (List.zip as bs)[i]? = some (x, y) := by
  induction as generalizing bs i with
  | nil => simp at hx
  | cons a as ih =>
    cases bs with
    | nil => simp at hy
    | cons b bs =>
      cases i with
      | zero =>
        simp at hx hy
        simp [List.zip_cons_cons, hx, hy]
      | succ j =>
        simp only [List.getElem?_cons_succ] at hx hy
        simp only [List.zip_cons_cons, List.getElem?_cons_succ]
        exact ih hx hy

/-- C3: `replay` on an operation identity whose two logs hold N recorded
calls prints the header `"<id> was called <N> times:"` followed by N
lines `"<id>(*<input>) -> <output>"` pairing the i-th input with the i-th
output; with zero recorded calls it prints the zero-calls header and no
detail lines, and does not raise. -/
theorem replay_transcript (r : Redis) (q : String) (N : Nat) (ins outs : List String)
    (hin : r.lrangeAll (q ++ ":inputs") = .ok ins)
    (hout : r.lrangeAll (q ++ ":outputs") = .ok outs)
    (hlen1 : ins.length = N) (hlen2 : outs.length = N) :
    ∃ lines, replay r q = .ok lines ∧ lines.length = N + 1 ∧
      lines[0]? = some (q ++ " was called " ++ natToDec N ++ " times:") ∧
      (∀ i x y, ins[i]? = some x → outs[i]? = some y →
        lines[i + 1]? = some (q ++ "(*" ++ x ++ ") -> " ++ y)) ∧
      (N = 0 → lines = [q ++ " was called " ++ natToDec 0 ++ " times:"]) := by
  subst hlen1
  refine ⟨(q ++ " was called " ++ natToDec ins.length ++ " times:") ::
      (List.zip ins outs).map (fun p => q ++ "(*" ++ p.1 ++ ") -> " ++ p.2),
    ?_, ?_, ?_, ?_, ?_⟩
  · unfold replay
    rw [hin, hout]
  · simp [List.length_zip, hlen2]
  · simp
  · intro i x y hx hy
    have hz := zip_getElem?_some hx hy
    simp [List.getElem?_cons_succ, List.getElem?_map, hz]
  · intro h0
    have : ins = [] := List.length_eq_zero.mp h0
    subst this
    simp [h0]

theorem replay_transcript_witness :
    ∃ lines,
      replay ((Redis.empty.setDb "f:inputs" (.list ["(1,)"])).setDb "f:outputs"
        (.list ["k1"])) "f" = .ok lines ∧
      lines.length = 1 + 1 ∧
      lines[0]? = some ("f" ++ " was called " ++ natToDec 1 ++ " times:") ∧
      (∀ i x y, (["(1,)"] : List String)[i]? = some x →
        (["k1"] : List String)[i]? = some y →
        lines[i + 1]? = some ("f" ++ "(*" ++ x ++ ") -> " ++ y)) ∧
      (1 = 0 → lines = ["f" ++ " was called " ++ natToDec 0 ++ " times:"]) :=
  replay_transcript ((Redis.empty.setDb "f:inputs" (.list ["(1,)"])).setDb "f:outputs"
      (.list ["k1"])) "f" 1 ["(1,)"] ["k1"] rfl rfl rfl rfl

/-- C4: round-trip — after `store(v)` under a fresh key on a well-formed
state, `get` with no decode function returns exactly the stored bytes
(`encode v`, the value's byte content); for a stored integer `get_int`
returns the original integer; for a stored string `get_str` returns the
original string. -/
theorem store_get_roundtrip (r : Redis) (k : String) (v : Value) (n : Nat)
    (li lo : List String) (hk : ValidKey k) (hc : CounterIs r storeQual n)
    (hi : LogIs r inputsKey li) (ho : LogIs r outputsKey lo) :
    (Cache.store k r [v] []).result = .ok (.vstr k) ∧
    (Cache.get (Cache.store k r [v] []).redis k none).2
        = .ok (some (.vbytes (encode v))) ∧
    (∀ b, v = .vbytes b →
      (Cache.get (Cache.store k r [v] []).redis k none).2 = .ok (some (.vbytes b))) ∧
    (∀ m : Int, v = .vint m →
      (Cache.get_int (Cache.store k r [v] []).redis k).2 = .ok (some (.vint m))) ∧
    (∀ s, v = .vstr s →
      (Cache.get_str (Cache.store k r [v] []).redis k).2 = .ok (some (.vstr s))) := by
  have hf := store_call_facts r k v n li lo hk hc hi ho
  have hdb := hf.2.2.2.2.1
  refine ⟨hf.1, ?_, ?_, ?_, ?_⟩
  · simp [Cache.get, Redis.getCmd, hdb]
  · intro b hb
    subst hb
    simp [Cache.get, Redis.getCmd, hdb, encode]
  · intro m hm
    subst hm
    simp [Cache.get_int, Cache.get, Redis.getCmd, hdb, encode, intDecode, parseInt_intToDec]
  · intro s hs
    subst hs
    simp [Cache.get_str, Cache.get, Redis.getCmd, hdb, encode, utf8Decode]

theorem store_get_roundtrip_witness :
    (Cache.store "k1" (Cache.init Redis.empty) [Value.vint (-7)] []).result
        = .ok (.vstr "k1") ∧
    (Cache.get (Cache.store "k1" (Cache.init Redis.empty) [Value.vint (-7)] []).redis
        "k1" none).2 = .ok (some (.vbytes (encode (Value.vint (-7))))) ∧
    (∀ b, Value.vint (-7) = Value.vbytes b →
      (Cache.get (Cache.store "k1" (Cache.init Redis.empty) [Value.vint (-7)] []).redis
        "k1" none).2 = .ok (some (.vbytes b))) ∧
    (∀ m : Int, Value.vint (-7) = Value.vint m →
      (Cache.get_int (Cache.store "k1" (Cache.init Redis.empty)
        [Value.vint (-7)] []).redis "k1").2 = .ok (some (.vint m))) ∧
    (∀ s, Value.vint (-7) = Value.vstr s →
      (Cache.get_str (Cache.store "k1" (Cache.init Redis.empty)
        [Value.vint (-7)] []).redis "k1").2 = .ok (some (.vstr s))) :=
  store_get_roundtrip (Cache.init Redis.empty) "k1" (Value.vint (-7)) 0 [] []
    (by decide) (counterIs_init Redis.empty _) (logIs_init Redis.empty _)
    (logIs_init Redis.empty _)

/-- C5: `get` on a key absent from the store returns the explicit absent
value (`None`) and never raises, with or without a decode function
(including `get_str` and `get_int`); the decode function is never applied
(the outcome is identical for every decode function), and the key space
is unchanged. -/
theorem get_absent_key (r : Redis) (k : String)
    (fn : Option (String → Except String Value)) (h : r.db k = none) :
    (Cache.get r k fn).2 = .ok none ∧
    (Cache.get_str r k).2 = .ok none ∧
    (Cache.get_int r k).2 = .ok none ∧
    (∀ f g : String → Except String Value,
      Cache.get r k (some f) = Cache.get r k (some g)) ∧
    (Cache.get r k fn).1.db = r.db := by
  refine ⟨?_, ?_, ?_, ?_, ?_⟩
  · simp [Cache.get, Redis.getCmd, h]
  · simp [Cache.get_str, Cache.get, Redis.getCmd, h]
  · simp [Cache.get_int, Cache.get, Redis.getCmd, h]
  · intro f g
    simp [Cache.get, Redis.getCmd, h]
  · simp [Cache.get, Redis.getCmd, h, db_log]
    rfl

theorem get_absent_key_witness :
    (Cache.get Redis.empty "nope" none).2 = .ok none ∧
    (Cache.get_str Redis.empty "nope").2 = .ok none ∧
    (Cache.get_int Redis.empty "nope").2 = .ok none ∧
    (∀ f g : String → Except String Value,
      Cache.get Redis.empty "nope" (some f) = Cache.get Redis.empty "nope" (some g)) ∧
    (Cache.get Redis.empty "nope" none).1.db = Redis.empty.db :=
  get_absent_key Redis.empty "nope" none rfl

/-- C6 as claimed is false: the claimed order of side effects within one
wrapped `Cache.store` invocation puts the counter increment last (after
the output-log append), but in the code `count_calls` is the inner
decorator and increments *before* delegating.  At the concrete input
below the actual command order is input-append, increment, `SET`,
output-append — not input-append, `SET`, output-append, increment. -/
theorem effect_order_counterexample :
    (Cache.store "k1" (Cache.init Redis.empty) [Value.vstr "foo"] []).redis.trace
        = [Event.flushdb, .rpush inputsKey (strOfArgs [Value.vstr "foo"]),
            .incr storeQual, .set "k1" (encode (Value.vstr "foo")),
            .rpush outputsKey "k1"] ∧
    ([Event.flushdb, Event.rpush inputsKey (strOfArgs [Value.vstr "foo"]),
        Event.incr storeQual, Event.set "k1" (encode (Value.vstr "foo")),
        Event.rpush outputsKey "k1"] : List Event)
      ≠ [Event.flushdb, .rpush inputsKey (strOfArgs [Value.vstr "foo"]),
          .set "k1" (encode (Value.vstr "foo")), .rpush outputsKey "k1",
          .incr storeQual] :=
  ⟨by decide, by decide⟩

/-- C6 (amended): within every single invocation of the fully wrapped
store operation the side effects occur in the order: append to the input
log, then increment the counter, then delegate to the underlying
operation (its `SET`), then append to the output log. -/
theorem effect_order (r : Redis) (k : String) (d : Value) (n : Nat)
    (li lo : List String) (hk : ValidKey k) (hc : CounterIs r storeQual n)
    (hi : LogIs r inputsKey li) (ho : LogIs r outputsKey lo) :
    (Cache.store k r [d] []).redis.trace
      = r.trace ++ [.rpush inputsKey (strOfArgs [d]), .incr storeQual,
          .set k (encode d), .rpush outputsKey k] :=
  (store_call_facts r k d n li lo hk hc hi ho).2.2.2.2.2

theorem effect_order_witness :
    (Cache.store "k1" (Cache.init Redis.empty) [Value.vint 5] []).redis.trace
      = (Cache.init Redis.empty).trace
          ++ [.rpush inputsKey (strOfArgs [Value.vint 5]), .incr storeQual,
              .set "k1" (encode (Value.vint 5)), .rpush outputsKey "k1"] :=
  effect_order (Cache.init Redis.empty) "k1" (Value.vint 5) 0 [] [] (by decide)
    (counterIs_init Redis.empty _) (logIs_init Redis.empty _) (logIs_init Redis.empty _)

theorem get_state (r : Redis) (k : String)
    (fn : Option (String → Except String Value)) :
    (Cache.get r k fn).1 = r.log (.get k) := by
  unfold Cache.get Redis.getCmd
  rcases hdb : r.db k with _ | v
  · simp [hdb]
  · cases v with
    | str b =>
      cases fn with
      | none => simp [hdb]
      | some f => cases hf : f b <;> simp [hdb, hf]
    | list l => simp [hdb]

/-- C7: counter records and call logs are cleared only by the explicit
reset of the backing store (`flushdb`, performed by `Cache.__init__`) and
never implicitly by another operation of the component: the `get` family
leaves the key space untouched, a `store` invocation (under its fresh
key) only extends the two logs and increments the counter — so the
counter never decreases — and `flushdb` is what clears the key space. -/
theorem records_cleared_only_by_reset :
    (∀ (r : Redis) (k : String) (fn : Option (String → Except String Value)),
      (Cache.get r k fn).1.db = r.db) ∧
    (∀ (r : Redis) (k : String), (Cache.get_str r k).1.db = r.db) ∧
    (∀ (r : Redis) (k : String), (Cache.get_int r k).1.db = r.db) ∧
    (∀ (r : Redis) (k : String) (d : Value) (n : Nat) (li lo : List String),
      ValidKey k → CounterIs r storeQual n → LogIs r inputsKey li →
      LogIs r outputsKey lo →
      CounterIs (Cache.store k r [d] []).redis storeQual (n + 1) ∧
      counterValue r storeQual ≤ counterValue (Cache.store k r [d] []).redis storeQual ∧
      LogIs (Cache.store k r [d] []).redis inputsKey (li ++ [strOfArgs [d]]) ∧
      LogIs (Cache.store k r [d] []).redis outputsKey (lo ++ [k])) ∧
    (∀ r : Redis, (Redis.flushdb r).db = fun _ => none) := by
  refine ⟨?_, ?_, ?_, ?_, fun r => rfl⟩
  · intro r k fn
    rw [get_state]
    rfl
  · intro r k
    unfold Cache.get_str
    rw [get_state]
    rfl
  · intro r k
    unfold Cache.get_int
    rw [get_state]
    rfl
  · intro r k d n li lo hk hc hi ho
    have hf := store_call_facts r k d n li lo hk hc hi ho
    refine ⟨hf.2.1, ?_, hf.2.2.1, hf.2.2.2.1⟩
    rw [counterValue_of_counterIs hc, counterValue_of_counterIs hf.2.1]
    exact_mod_cast Nat.le_succ n

theorem records_cleared_only_by_reset_witness :
    CounterIs (Cache.store "k1" (Cache.init Redis.empty) [Value.vint 9] []).redis
        storeQual (0 + 1) ∧
    counterValue (Cache.init Redis.empty) storeQual
        ≤ counterValue (Cache.store "k1" (Cache.init Redis.empty) [Value.vint 9] []).redis
            storeQual ∧
    LogIs (Cache.store "k1" (Cache.init Redis.empty) [Value.vint 9] []).redis inputsKey
        ([] ++ [strOfArgs [Value.vint 9]]) ∧
    LogIs (Cache.store "k1" (Cache.init Redis.empty) [Value.vint 9] []).redis outputsKey
        ([] ++ ["k1"]) :=
  records_cleared_only_by_reset.2.2.2.1 (Cache.init Redis.empty) "k1" (Value.vint 9) 0 [] []
    (by decide) (counterIs_init Redis.empty _) (logIs_init Redis.empty _)
    (logIs_init Redis.empty _)

theorem self_ne_append_inputs (q : String) : ¬ q = q ++ ":inputs" := by
  intro h
  have hlen := congrArg String.length h
  rw [String.length_append] at hlen
  have h7 : (":inputs" : String).length = 7 := rfl
  omega

/-- C8: when the wrapped operation fails, neither the counter wrapper nor
the recorder wrapper suppresses the failure — it propagates unchanged to
the caller — and, as long as the wrapped operation does not itself write
the counter key, the counter has still been incremented exactly once for
that call. -/
theorem wrappers_propagate_failure (q : String) (m : Method) (r : Redis)
    (args : List Value) (kwargs : List (String × Value)) (n : Nat)
    (li : List String) (e : String)
    (hc : CounterIs r q n) (hi : LogIs r (q ++ ":inputs") li)
    (hfail : (m ((((r.rpushCmd (q ++ ":inputs") (strOfArgs args)).1).incrCmd q).1)
        args kwargs).result = .error e)
    (hframe : (m ((((r.rpushCmd (q ++ ":inputs") (strOfArgs args)).1).incrCmd q).1)
        args kwargs).redis.db q
      = ((((r.rpushCmd (q ++ ":inputs") (strOfArgs args)).1).incrCmd q).1).db q) :
    (call_history q (count_calls q m) r args kwargs).result = .error e ∧
    CounterIs (call_history q (count_calls q m) r args kwargs).redis q (n + 1) := by
  have e1 := rpush_of_logIs hi (strOfArgs args)
  have hc1 : CounterIs ((r.setDb (q ++ ":inputs") (.list (li ++ [strOfArgs args]))).log
      (.rpush (q ++ ":inputs") (strOfArgs args))) q n := by
    apply counterIs_of_db_eq _ hc
    rw [db_log, db_setDb_of_ne _ _ _ _ (self_ne_append_inputs q)]
  have e2 := incr_of_counterIs hc1
  rw [e1] at hfail hframe
  dsimp only at hfail hframe
  rw [e2] at hfail hframe
  dsimp only at hfail hframe
  have hcast : ((n : Int) + 1) = (((n + 1 : Nat)) : Int) := by push_cast; ring
  constructor
  · simp only [call_history, count_calls, e1, e2, hfail]
  · refine Or.inl ?_
    simp only [call_history, count_calls, e1, e2, hfail]
    rw [hframe, db_log, db_setDb_self, hcast]

theorem wrappers_propagate_failure_witness :
    (call_history "f" (count_calls "f" failingMethod) Redis.empty [Value.vint 1] []).result
        = .error "boom" ∧
    CounterIs (call_history "f" (count_calls "f" failingMethod) Redis.empty
        [Value.vint 1] []).redis "f" (0 + 1) :=
  wrappers_propagate_failure "f" failingMethod Redis.empty [Value.vint 1] [] 0 [] "boom"
    (Or.inr ⟨rfl, rfl⟩) (Or.inr ⟨rfl, rfl⟩) rfl rfl

/-- C9: the recorder logs only the positional arguments — the entry it
appends to the inputs log is `str(args)`, a function of the positional
arguments alone — while the keyword arguments are passed through
unchanged to the underlying operation, whose outcome the wrapper
returns. -/
theorem recorder_ignores_kwargs (q : String) (m : Method) (r : Redis)
    (args : List Value) (kwargs : List (String × Value)) (li lo : List String)
    (hi : LogIs r (q ++ ":inputs") li)
    (ho : LogIs (m ((r.rpushCmd (q ++ ":inputs") (strOfArgs args)).1) args kwargs).redis
        (q ++ ":outputs") lo) :
    (call_history q m r args kwargs).result
        = (m ((r.rpushCmd (q ++ ":inputs") (strOfArgs args)).1) args kwargs).result ∧
    ((r.rpushCmd (q ++ ":inputs") (strOfArgs args)).1).db (q ++ ":inputs")
        = some (.list (li ++ [strOfArgs args])) := by
  have e1 := rpush_of_logIs hi (strOfArgs args)
  rw [e1] at ho ⊢
  dsimp only at ho ⊢
  refine ⟨?_, ?_⟩
  · simp only [call_history, e1]
    cases hres : (m ((r.setDb (q ++ ":inputs") (.list (li ++ [strOfArgs args]))).log
        (.rpush (q ++ ":inputs") (strOfArgs args))) args kwargs).result with
    | error err => simp [hres]
    | ok out =>
      have e4 := rpush_of_logIs ho (pyStr out)
      simp [hres, e4]
  · rw [db_log, db_setDb_self]

theorem recorder_ignores_kwargs_witness :
    (call_history "f" kwProbe Redis.empty [Value.vint 1] [("x", Value.vstr "y")]).result
        = (kwProbe ((Redis.empty.rpushCmd ("f" ++ ":inputs")
            (strOfArgs [Value.vint 1])).1) [Value.vint 1]
            [("x", Value.vstr "y")]).result ∧
    ((Redis.empty.rpushCmd ("f" ++ ":inputs") (strOfArgs [Value.vint 1])).1).db
        ("f" ++ ":inputs") = some (.list ([] ++ [strOfArgs [Value.vint 1]])) :=
  recorder_ignores_kwargs "f" kwProbe Redis.empty [Value.vint 1]
    [("x", Value.vstr "y")] [] [] (Or.inr ⟨rfl, rfl⟩) (Or.inr ⟨rfl, rfl⟩)

/-- C10: `update_topics` raises `NameError` for every input — it evaluates
the undefined name `true` before invoking the collection — so it never
performs any update, never returns normally, and leaves the collection
unchanged, for every possible collection and update operation. -/
theorem update_topics_always_raises {σ : Type}
    (collUpdate : σ → List (String × PyObj) → List (String × PyObj) →
      List (String × PyObj) → σ × PyObj)
    (mongo_collection : σ) (name topics : String) :
    update_topics collUpdate mongo_collection name topics
      = (mongo_collection,
          .error ("NameError: name " ++ pyQuote ++ "true" ++ pyQuote
            ++ " is not defined")) := rfl
